import Mathlib

/-!
Verification of the numeric routines of `pyLib/optics.py`
(slow-extraction separatrix analysis).

The Python source drives an external particle-tracking engine and
post-processes its recorded turn-by-turn data.  We embed the numeric
post-processing shallowly:

* floating-point values become exact rationals `ℚ` (and, for the
  fixed-point search which multiplies by `exp(±2πi/3)`, values in the
  computable ordered subfield `ℚ[√3]` defined below);
* the external tracking engine (`myLine.build_particles` / `track` /
  `record_last_track`) becomes an opaque function
  `track : ℚ → List ℚ` returning the recorded horizontal positions of
  a particle built at a given initial position (the `num_turns` and
  `d_gen` arguments of the Python functions are absorbed into it);
* numpy arrays become `List`s, numpy fancy indexing becomes `List.getD`,
  and Python indexing with possibly negative indices is modelled by
  `pyGet` below;
* code that can raise `IndexError` returns an `Option`, `none` marking
  the raised error.
-/

/-! ## 4.1 `closest_stable_unstable` (boundary bisection search) -/

/-- Embeds the classification `(rec_test.x > xBoundary).any()` from
`closest_stable_unstable`: the test particle built at `x_test` is
unstable iff some recorded position strictly exceeds `xBoundary`. -/
def unstableTest (track : ℚ → List ℚ) (xBoundary x_test : ℚ) : Bool :=
  (track x_test).any (fun v => decide (xBoundary < v))

/-- One iteration of the bisection loop body of `closest_stable_unstable`:
generate a particle in the middle of the region, classify it, and move
the corresponding end of the search region to the midpoint. -/
def bisectStep (track : ℚ → List ℚ) (xBoundary : ℚ) (s : ℚ × ℚ) : ℚ × ℚ :=
  let x_test := (s.1 + s.2) / 2
  if unstableTest track xBoundary x_test then (s.1, x_test) else (x_test, s.2)

/-- The loop body guarded by the `while` condition
`xSearch[1] - xSearch[0] > absPrecisio`: a no-op once the region is
narrow enough. -/
def bisectGuardedStep (track : ℚ → List ℚ) (xBoundary absPrecisio : ℚ)
    (s : ℚ × ℚ) : ℚ × ℚ :=
  if absPrecisio < s.2 - s.1 then bisectStep track xBoundary s else s

/-- The interval width strictly shrinks in ceiling-of-quotient measure
when it is halved while still wider than the (positive) precision. -/
theorem ceil_half_toNat_lt {w p : ℚ} (hp : 0 < p) (hw : p < w) :
    (⌈(w / 2) / p⌉).toNat < (⌈w / p⌉).toNat := by
  have h1 : (1 : ℤ) < ⌈w / p⌉ := by
    rw [Int.lt_ceil]
    exact_mod_cast (one_lt_div hp).mpr hw
  have h2 : (⌈w / p⌉ : ℚ) ≥ w / p := Int.le_ceil _
  have h3 : ⌈(w / 2) / p⌉ ≤ ⌈w / p⌉ - 1 := by
    rw [Int.ceil_le]
    push_cast
    have : ((⌈w / p⌉ : ℚ)) ≥ 2 := by exact_mod_cast h1
    have hhalf : (w / 2) / p = (w / p) / 2 := by ring
    rw [hhalf]
    linarith
  omega

/-- Embeds the `while` loop of `closest_stable_unstable`
(`src/pyLib/optics.py`, lines 48–68).  The loop diverges when
`absPrecisio ≤ 0` (the width never reaches a non-positive threshold),
so the embedding carries the positivity of the precision as the
hypothesis `hp` making the recursion well founded. -/
def closest_stable_unstable (track : ℚ → List ℚ) (xBoundary absPrecisio : ℚ)
    (hp : 0 < absPrecisio) (xSearch : ℚ × ℚ) : ℚ × ℚ :=
  if h : absPrecisio < xSearch.2 - xSearch.1 then
    closest_stable_unstable track xBoundary absPrecisio hp
      (bisectStep track xBoundary xSearch)
  else xSearch
termination_by (⌈(xSearch.2 - xSearch.1) / absPrecisio⌉).toNat
decreasing_by
  have hwidth : (bisectStep track xBoundary xSearch).2
      - (bisectStep track xBoundary xSearch).1 = (xSearch.2 - xSearch.1) / 2 := by
    simp only [bisectStep]
    split <;> simp <;> ring
  rw [hwidth]
  exact ceil_half_toNat_lt hp h

/-- Halving of the interval width by each loop iteration. -/
theorem bisectStep_width (track : ℚ → List ℚ) (xBoundary : ℚ) (s : ℚ × ℚ) :
    (bisectStep track xBoundary s).2 - (bisectStep track xBoundary s).1
      = (s.2 - s.1) / 2 := by
  simp only [bisectStep]
  split <;> simp <;> ring

/-- C1 (counterexample).  The claim asserts a strict lower bracket
`lo' < b`.  For the stand-in tracker `track x = [x]` with
`xBoundary = 1` (so the stability boundary is the constant `b = 1`),
initial interval `[0, 2]` (which contains `b` strictly) and precision
`1/2`, the loop's first midpoint is exactly `1 = b`, is classified
stable, and becomes the lower bound: the returned interval is
`[1, 3/2]`, whose lower end equals `b` instead of lying strictly
below it. -/
theorem closest_stable_unstable_lower_can_hit_boundary :
    (∀ x : ℚ, unstableTest (fun t => [t]) 1 x = decide ((1:ℚ) < x)) ∧
    ((0:ℚ), (2:ℚ)).1 ≤ 1 ∧ (1:ℚ) ≤ ((0:ℚ), (2:ℚ)).2 ∧ (0:ℚ) < 1/2 ∧
    closest_stable_unstable (fun t => [t]) 1 (1/2) (by norm_num)
      ((0:ℚ), (2:ℚ)) = (1, 3/2) ∧
    ¬ ((closest_stable_unstable (fun t => [t]) 1 (1/2) (by norm_num)
      ((0:ℚ), (2:ℚ))).1 < 1) := by
  have heval : closest_stable_unstable (fun t => [t]) 1 (1/2) (by norm_num)
      ((0:ℚ), (2:ℚ)) = (1, 3/2) := by
    rw [closest_stable_unstable]
    norm_num [unstableTest, bisectStep]
    rw [closest_stable_unstable]
    norm_num [unstableTest, bisectStep]
    rw [closest_stable_unstable]
    norm_num
  refine ⟨fun x => by simp [unstableTest], by norm_num, by norm_num, by norm_num,
    heval, ?_⟩
  rw [heval]
  norm_num

/-- C1 (amended).  For a tracker whose stability boundary is the fixed
constant `b`, any initial interval containing `b` and any positive
precision, `closest_stable_unstable` returns an interval `[lo', hi']`
with `lo' ≤ b ≤ hi'` and `hi' - lo' ≤ absPrecisio`; the upper bound
stays strictly above `b` whenever it starts strictly above `b`, while
the lower bound may land exactly on `b`. -/
theorem closest_stable_unstable_brackets (track : ℚ → List ℚ)
    (xBoundary absPrecisio b : ℚ) (hp : 0 < absPrecisio) (xSearch : ℚ × ℚ)
    (htrack : ∀ x, unstableTest track xBoundary x = decide (b < x))
    (hlo : xSearch.1 ≤ b) (hhi : b ≤ xSearch.2) :
    (closest_stable_unstable track xBoundary absPrecisio hp xSearch).1 ≤ b ∧
    b ≤ (closest_stable_unstable track xBoundary absPrecisio hp xSearch).2 ∧
    (closest_stable_unstable track xBoundary absPrecisio hp xSearch).2
      - (closest_stable_unstable track xBoundary absPrecisio hp xSearch).1
        ≤ absPrecisio ∧
    (b < xSearch.2 →
      b < (closest_stable_unstable track xBoundary absPrecisio hp xSearch).2) := by
  revert hlo hhi
  induction xSearch using closest_stable_unstable.induct track xBoundary absPrecisio hp with
  | case1 s hguard ih =>
    intro hlo hhi
    rw [closest_stable_unstable, dif_pos hguard]
    by_cases hb : b < (s.1 + s.2) / 2
    · have hstep : bisectStep track xBoundary s = (s.1, (s.1 + s.2) / 2) := by
        simp [bisectStep, htrack, hb]
      rw [hstep] at ih
      obtain ⟨A, B, C, D⟩ := ih hlo (le_of_lt hb)
      rw [hstep]
      exact ⟨A, B, C, fun _ => D hb⟩
    · have hstep : bisectStep track xBoundary s = ((s.1 + s.2) / 2, s.2) := by
        simp [bisectStep, htrack, hb]
      rw [hstep] at ih
      obtain ⟨A, B, C, D⟩ := ih (not_lt.mp hb) hhi
      rw [hstep]
      exact ⟨A, B, C, D⟩
  | case2 s hguard =>
    intro hlo hhi
    rw [closest_stable_unstable, dif_neg hguard]
    exact ⟨hlo, hhi, by linarith [not_lt.mp hguard], fun h => h⟩

/-- C1 (witness for the amended theorem): the stand-in tracker
`track x = [x]` with boundary `1`, interval `[0, 2]`, precision
`1/2`. -/
theorem closest_stable_unstable_brackets_witness :
    (0:ℚ) < 1/2 ∧
    (closest_stable_unstable (fun t => [t]) 1 (1/2) (by norm_num)
      ((0:ℚ), (2:ℚ))).1 ≤ 1 ∧
    (1:ℚ) ≤ (closest_stable_unstable (fun t => [t]) 1 (1/2) (by norm_num)
      ((0:ℚ), (2:ℚ))).2 ∧
    (closest_stable_unstable (fun t => [t]) 1 (1/2) (by norm_num)
        ((0:ℚ), (2:ℚ))).2
      - (closest_stable_unstable (fun t => [t]) 1 (1/2) (by norm_num)
        ((0:ℚ), (2:ℚ))).1 ≤ 1/2 ∧
    ((1:ℚ) < ((0:ℚ), (2:ℚ)).2 →
      1 < (closest_stable_unstable (fun t => [t]) 1 (1/2) (by norm_num)
        ((0:ℚ), (2:ℚ))).2) :=
  ⟨by norm_num,
    closest_stable_unstable_brackets (fun t => [t]) 1 (1/2) 1 (by norm_num)
      ((0:ℚ), (2:ℚ)) (fun x => by simp [unstableTest]) (by norm_num) (by norm_num)⟩

/-- C8: over exact arithmetic the bisection loop of
`closest_stable_unstable` terminates for every positive precision:
each loop iteration exactly halves the interval width, the loop is some
finite number of iterations of its guarded body, and the returned
interval's width is at most the precision. -/
theorem closest_stable_unstable_terminates (track : ℚ → List ℚ)
    (xBoundary absPrecisio : ℚ) (hp : 0 < absPrecisio) (xSearch : ℚ × ℚ)
    (hle : xSearch.1 ≤ xSearch.2) :
    (∀ s : ℚ × ℚ, (bisectStep track xBoundary s).2
      - (bisectStep track xBoundary s).1 = (s.2 - s.1) / 2) ∧
    (∃ n : ℕ, closest_stable_unstable track xBoundary absPrecisio hp xSearch
        = (bisectGuardedStep track xBoundary absPrecisio)^[n] xSearch) ∧
    (closest_stable_unstable track xBoundary absPrecisio hp xSearch).2
      - (closest_stable_unstable track xBoundary absPrecisio hp xSearch).1
        ≤ absPrecisio := by
  refine ⟨bisectStep_width track xBoundary, ?_⟩
  clear hle
  induction xSearch using closest_stable_unstable.induct track xBoundary absPrecisio hp with
  | case1 s hguard ih =>
    obtain ⟨⟨n, hn⟩, hw⟩ := ih
    rw [closest_stable_unstable, dif_pos hguard]
    refine ⟨⟨n + 1, ?_⟩, hw⟩
    rw [Function.iterate_succ_apply]
    have hg : bisectGuardedStep track xBoundary absPrecisio s
        = bisectStep track xBoundary s := by
      simp [bisectGuardedStep, hguard]
    rw [hg]
    exact hn
  | case2 s hguard =>
    rw [closest_stable_unstable, dif_neg hguard]
    exact ⟨⟨0, rfl⟩, by linarith [not_lt.mp hguard]⟩

/-- C8 (witness): the stand-in tracker at interval `[0, 2]` with
precision `1/2`. -/
theorem closest_stable_unstable_terminates_witness :
    (0:ℚ) < 1/2 ∧ ((0:ℚ), (2:ℚ)).1 ≤ ((0:ℚ), (2:ℚ)).2 ∧
    ((∀ s : ℚ × ℚ, (bisectStep (fun t => [t]) 1 s).2
      - (bisectStep (fun t => [t]) 1 s).1 = (s.2 - s.1) / 2) ∧
    (∃ n : ℕ, closest_stable_unstable (fun t => [t]) 1 (1/2) (by norm_num)
        ((0:ℚ), (2:ℚ))
        = (bisectGuardedStep (fun t => [t]) 1 (1/2))^[n] ((0:ℚ), (2:ℚ))) ∧
    (closest_stable_unstable (fun t => [t]) 1 (1/2) (by norm_num)
        ((0:ℚ), (2:ℚ))).2
      - (closest_stable_unstable (fun t => [t]) 1 (1/2) (by norm_num)
        ((0:ℚ), (2:ℚ))).1 ≤ 1/2) :=
  ⟨by norm_num, by norm_num,
    closest_stable_unstable_terminates (fun t => [t]) 1 (1/2) (by norm_num)
      ((0:ℚ), (2:ℚ)) (by norm_num)⟩

/-- Embeds `closest_stable_unstable` together with the Python-level
aliasing of its `xSearch` list argument: the caller's lists live in a
store `ℕ → ℚ × ℚ`, the function receives the reference `r` of its
search interval, each loop iteration writes the updated bound back
through that reference (`xSearch[1] = x_test` / `xSearch[0] = x_test`),
and `return xSearch` returns the content reachable through the same
reference. -/
def closest_stable_unstable_store (track : ℚ → List ℚ)
    (xBoundary absPrecisio : ℚ) (hp : 0 < absPrecisio)
    (store : ℕ → ℚ × ℚ) (r : ℕ) : (ℕ → ℚ × ℚ) × (ℚ × ℚ) :=
  if h : absPrecisio < (store r).2 - (store r).1 then
    closest_stable_unstable_store track xBoundary absPrecisio hp
      (Function.update store r (bisectStep track xBoundary (store r))) r
  else (store, store r)
termination_by (⌈((store r).2 - (store r).1) / absPrecisio⌉).toNat
decreasing_by
  rw [Function.update_same, bisectStep_width]
  exact ceil_half_toNat_lt hp h

/-- C9: the bisection search mutates the caller's search-interval list
in place and returns that very list: after the call the caller's slot
`r` holds exactly the returned final bounds (which agree with the pure
bisection on the initial content), while every other slot of the store
is untouched. -/
theorem closest_stable_unstable_store_frame (track : ℚ → List ℚ)
    (xBoundary absPrecisio : ℚ) (hp : 0 < absPrecisio)
    (store : ℕ → ℚ × ℚ) (r : ℕ) :
    (closest_stable_unstable_store track xBoundary absPrecisio hp store r).2
      = (closest_stable_unstable_store track xBoundary absPrecisio hp store r).1 r ∧
    (closest_stable_unstable_store track xBoundary absPrecisio hp store r).1 r
      = closest_stable_unstable track xBoundary absPrecisio hp (store r) ∧
    ∀ r2 : ℕ, r2 ≠ r →
      (closest_stable_unstable_store track xBoundary absPrecisio hp store r).1 r2
        = store r2 := by
  induction store, r using closest_stable_unstable_store.induct track xBoundary absPrecisio hp with
  | case1 store r hguard ih =>
    rw [closest_stable_unstable_store, dif_pos hguard]
    obtain ⟨h1, h2, h3⟩ := ih
    refine ⟨h1, ?_, ?_⟩
    · rw [h2, Function.update_same]
      conv_rhs => rw [closest_stable_unstable]
      rw [dif_pos hguard]
    · intro r2 hr2
      rw [h3 r2 hr2, Function.update_noteq hr2]
  | case2 store r hguard =>
    rw [closest_stable_unstable_store, dif_neg hguard]
    refine ⟨rfl, ?_, fun r2 _ => rfl⟩
    rw [closest_stable_unstable, dif_neg hguard]

/-- C9 (witness): concrete store holding `[0, 2]` in every slot,
interval reference `0`, spectator slot `1`. -/
theorem closest_stable_unstable_store_frame_witness :
    (0:ℚ) < 1/2 ∧ (1:ℕ) ≠ 0 ∧
    (closest_stable_unstable_store (fun t => [t]) 1 (1/2) (by norm_num)
      (fun _ => ((0:ℚ), (2:ℚ))) 0).1 1 = ((0:ℚ), (2:ℚ)) :=
  ⟨by norm_num, by decide,
    (closest_stable_unstable_store_frame (fun t => [t]) 1 (1/2) (by norm_num)
      (fun _ => ((0:ℚ), (2:ℚ))) 0).2.2 1 (by decide)⟩

/-! ## 4.4 `separatrix_at_septum` (septum crossing fit) -/

/-- Python list indexing `xs[i]` for a possibly negative `i`:
a nonnegative index is looked up directly, a negative index wraps
around to `len(xs) + i`, and anything outside `[-len(xs), len(xs))`
raises `IndexError` (modelled as `none`). -/
def pyGet (xs : List ℚ) (i : ℤ) : Option ℚ :=
  if 0 ≤ i then xs[i.toNat]?
  else if 0 ≤ (xs.length : ℤ) + i then xs[((xs.length : ℤ) + i).toNat]?
  else none

/-- Scan loop of `np.argmin`: carries the current position `i`, the
index `besti` of the smallest value seen so far and that value
`bestv`, updating on strictly smaller values only (so the first
minimum wins). -/
def argminAbsAux (xBoundary : ℚ) : List ℚ → ℕ → ℕ → ℚ → ℕ
  | [], _, besti, _ => besti
  | v :: vs, i, besti, bestv =>
    if |v - xBoundary| < bestv then argminAbsAux xBoundary vs (i + 1) i |v - xBoundary|
    else argminAbsAux xBoundary vs (i + 1) besti bestv

/-- Embeds `np.argmin(np.abs(x_separ - xBoundary))`: index of the first
recorded position closest (by absolute difference) to the boundary.
(`np.argmin` raises on an empty array; the embedding returns `0` there,
and every theorem using it assumes a nonempty record.) -/
def argminAbs (xs : List ℚ) (xBoundary : ℚ) : ℕ :=
  match xs with
  | [] => 0
  | v :: vs => argminAbsAux xBoundary vs 1 0 |v - xBoundary|

theorem argminAbsAux_lt (xBoundary : ℚ) (l : List ℚ) :
    ∀ (i besti : ℕ) (bestv : ℚ), besti < i →
      argminAbsAux xBoundary l i besti bestv < i + l.length := by
  induction l with
  | nil =>
    intro i besti bestv h
    simp only [argminAbsAux, List.length_nil]
    omega
  | cons v vs ih =>
    intro i besti bestv h
    simp only [argminAbsAux, List.length_cons]
    split
    · have := ih (i + 1) i |v - xBoundary| (by omega)
      omega
    · have := ih (i + 1) besti bestv (by omega)
      omega

theorem argminAbs_lt_length (xs : List ℚ) (xBoundary : ℚ) (h : xs ≠ []) :
    argminAbs xs xBoundary < xs.length := by
  match xs with
  | v :: vs =>
    have := argminAbsAux_lt xBoundary vs 1 0 |v - xBoundary| (by omega)
    simp only [argminAbs, List.length_cons]
    omega

/-- `np.polyfit([x0, x1], [y0, y1], deg=1)` for two sample points,
returned as (slope, intercept).  On distinct abscissas this is the
interpolating line, which is what the least-squares fit returns there.
(On two identical points with abscissa `0` — the only degenerate shape
a claim exercises — numpy's minimum-norm least-squares solution is
`(0, y0)`, which the rational division-by-zero convention reproduces.) -/
def polyfit2 (x0 x1 y0 y1 : ℚ) : ℚ × ℚ :=
  let slope := (y1 - y0) / (x1 - x0)
  (slope, y0 - slope * x0)

/-- The dictionary returned by `separatrix_at_septum`. -/
structure SeparatrixResults where
  slope : ℚ
  px_at_septum : ℚ
  closer_turn : ℕ
  poly_sep : ℚ × ℚ
deriving DecidableEq

/-- Embeds `separatrix_at_septum` (`src/pyLib/optics.py`, lines
136–160) on the per-turn arrays `rec_sep.x[0, :]` and
`rec_sep.px[0, :]`: find the turn closest to the septum, fit a straight
line through the recorded points 3 turns after and 3 turns before it
(`x_separ[i_septum + 3]` and `x_separ[i_septum - 3]`, the latter with
Python's negative-index wraparound), and evaluate slope and septum
momentum; `none` models the `IndexError` raised when an index is out
of range. -/
def separatrix_at_septum (x_separ px_separ : List ℚ) (xBoundary : ℚ) :
    Option SeparatrixResults :=
  let i_septum := argminAbs x_separ xBoundary
  (pyGet x_separ ((i_septum : ℤ) + 3)).bind fun xp =>
    (pyGet x_separ ((i_septum : ℤ) - 3)).bind fun xm =>
      (pyGet px_separ ((i_septum : ℤ) + 3)).bind fun yp =>
        (pyGet px_separ ((i_septum : ℤ) - 3)).map fun ym =>
          let poly_sep := polyfit2 xp xm yp ym
          ⟨poly_sep.1, poly_sep.1 * xBoundary + poly_sep.2, i_septum, poly_sep⟩

theorem pyGet_natCast (xs : List ℚ) (j : ℕ) : pyGet xs (j : ℤ) = xs[j]? := by
  simp [pyGet, Int.natCast_nonneg]

theorem pyGet_negIdx (xs : List ℚ) (i : ℤ) (h : i < 0)
    (h2 : 0 ≤ (xs.length : ℤ) + i) :
    pyGet xs i = xs[((xs.length : ℤ) + i).toNat]? := by
  simp [pyGet, not_le.mpr h, h2]

/-- Access pattern of the minus-3 neighbour: inside the array when the
closest turn has index at least 3, wrapped around to `n + i - 3`
otherwise; uniformly `(n + i - 3) % n`. -/
theorem pyGet_sub3 (xs : List ℚ) (i : ℕ) (hi : i < xs.length)
    (hn : 3 < xs.length) :
    pyGet xs ((i : ℤ) - 3) = xs[(xs.length + i - 3) % xs.length]? := by
  rcases le_or_lt 3 i with h3 | h3
  · have hcast : (i : ℤ) - 3 = ((i - 3 : ℕ) : ℤ) := by omega
    rw [hcast, pyGet_natCast]
    have : (xs.length + i - 3) % xs.length = i - 3 := by
      have h1 : xs.length + i - 3 = xs.length + (i - 3) := by omega
      rw [h1, Nat.add_mod_left, Nat.mod_eq_of_lt (by omega)]
    rw [this]
  · have hneg : (i : ℤ) - 3 < 0 := by omega
    have hge : 0 ≤ (xs.length : ℤ) + ((i : ℤ) - 3) := by omega
    rw [pyGet_negIdx xs _ hneg hge]
    have : ((xs.length : ℤ) + ((i : ℤ) - 3)).toNat = (xs.length + i - 3) % xs.length := by
      have h1 : ((xs.length : ℤ) + ((i : ℤ) - 3)).toNat = xs.length + i - 3 := by omega
      rw [h1, Nat.mod_eq_of_lt (by omega)]
    rw [this]

/-- Reduction of `separatrix_at_septum` when the plus-3 neighbour is in
range: both fit points are read off, the minus-3 one at the wrapped
index `(n + i - 3) % n`. -/
theorem separatrix_at_septum_eq (x px : List ℚ) (xBoundary : ℚ) (i : ℕ)
    (hi : argminAbs x xBoundary = i) (hlen : px.length = x.length)
    (hwin : i + 3 < x.length) :
    separatrix_at_septum x px xBoundary
      = some ⟨(polyfit2 (x.getD (i + 3) 0) (x.getD ((x.length + i - 3) % x.length) 0)
                (px.getD (i + 3) 0) (px.getD ((x.length + i - 3) % x.length) 0)).1,
              (polyfit2 (x.getD (i + 3) 0) (x.getD ((x.length + i - 3) % x.length) 0)
                (px.getD (i + 3) 0) (px.getD ((x.length + i - 3) % x.length) 0)).1
                  * xBoundary
                + (polyfit2 (x.getD (i + 3) 0) (x.getD ((x.length + i - 3) % x.length) 0)
                  (px.getD (i + 3) 0) (px.getD ((x.length + i - 3) % x.length) 0)).2,
              i,
              polyfit2 (x.getD (i + 3) 0) (x.getD ((x.length + i - 3) % x.length) 0)
                (px.getD (i + 3) 0) (px.getD ((x.length + i - 3) % x.length) 0)⟩ := by
  have hn3 : 3 < x.length := by omega
  have hilt : i < x.length := by omega
  have hwrapx : (x.length + i - 3) % x.length < x.length :=
    Nat.mod_lt _ (by omega)
  have hcast : (i : ℤ) + 3 = ((i + 3 : ℕ) : ℤ) := by omega
  have hx1 : pyGet x ((i : ℤ) + 3) = some (x.getD (i + 3) 0) := by
    rw [hcast, pyGet_natCast, List.getElem?_eq_getElem hwin,
      List.getD_eq_getElem x 0 hwin]
  have hx2 : pyGet x ((i : ℤ) - 3)
      = some (x.getD ((x.length + i - 3) % x.length) 0) := by
    rw [pyGet_sub3 x i hilt hn3, List.getElem?_eq_getElem hwrapx,
      List.getD_eq_getElem x 0 hwrapx]
  have hp1 : pyGet px ((i : ℤ) + 3) = some (px.getD (i + 3) 0) := by
    rw [hcast, pyGet_natCast, List.getElem?_eq_getElem (by omega : i + 3 < px.length),
      List.getD_eq_getElem px 0 (by omega)]
  have hp2 : pyGet px ((i : ℤ) - 3)
      = some (px.getD ((x.length + i - 3) % x.length) 0) := by
    have hwrapp : (x.length + i - 3) % x.length < px.length := by omega
    rw [pyGet_sub3 px i (by omega) (by omega), hlen,
      List.getElem?_eq_getElem hwrapp, List.getD_eq_getElem px 0 hwrapp]
  simp only [separatrix_at_septum, hi, hx1, hx2, hp1, hp2]
  rfl

/-- C4 (counterexample).  The claim asserts an out-of-range failure
whenever the closest-turn index is below 3.  For the record
`x = [0,10,10,10]`, `px = [0,0,0,0]` with septum `0`, the closest turn
is `0 < 3`, yet no error is raised: Python's negative indexing wraps
`x[-3]` around to `x[1]`, and the call returns a result. -/
theorem separatrix_at_septum_wraparound_no_error :
    argminAbs [(0:ℚ), 10, 10, 10] 0 = 0 ∧ (0:ℕ) < 3 ∧
    separatrix_at_septum [(0:ℚ), 10, 10, 10] [(0:ℚ), 0, 0, 0] 0
      = some ⟨0, 0, 0, (0, 0)⟩ := by
  refine ⟨by norm_num [argminAbs, argminAbsAux], by norm_num, ?_⟩
  norm_num [separatrix_at_septum, argminAbs, argminAbsAux, pyGet, polyfit2]
  simp

/-- C4 (amended).  For a nonempty record, the fit raises an
index-out-of-range error exactly when the plus-3 neighbour of the
closest-turn index is past the end of the record
(`length ≤ i_septum + 3`); an index below 3 alone raises nothing, the
minus-3 access wrapping around instead. -/
theorem separatrix_at_septum_none_iff (x px : List ℚ) (xBoundary : ℚ)
    (hx : x ≠ []) (hlen : px.length = x.length) :
    separatrix_at_septum x px xBoundary = none
      ↔ x.length ≤ argminAbs x xBoundary + 3 := by
  constructor
  · intro hnone
    by_contra hlt
    push_neg at hlt
    rw [separatrix_at_septum_eq x px xBoundary _ rfl hlen hlt] at hnone
    exact Option.noConfusion hnone
  · intro hge
    have hnone1 : pyGet x ((argminAbs x xBoundary : ℤ) + 3) = none := by
      have hcast : ((argminAbs x xBoundary : ℤ)) + 3
          = ((argminAbs x xBoundary + 3 : ℕ) : ℤ) := by push_cast; ring
      rw [hcast, pyGet_natCast]
      exact List.getElem?_eq_none hge
    simp [separatrix_at_septum, hnone1]

/-- C4 (witness for the amended theorem): three-sample record
`x = [1,2,3]` with septum `3` (closest turn `2`, `2 + 3` past the
end), which indeed errors. -/
theorem separatrix_at_septum_none_iff_witness :
    ([(1:ℚ),2,3] : List ℚ) ≠ [] ∧
    ([(0:ℚ),0,0] : List ℚ).length = ([(1:ℚ),2,3] : List ℚ).length ∧
    (separatrix_at_septum [(1:ℚ),2,3] [(0:ℚ),0,0] 3 = none
      ↔ ([(1:ℚ),2,3] : List ℚ).length ≤ argminAbs [(1:ℚ),2,3] 3 + 3) :=
  ⟨by simp, by norm_num,
    separatrix_at_septum_none_iff [(1:ℚ),2,3] [(0:ℚ),0,0] 3 (by simp) (by norm_num)⟩

/-- C10: when the closest-turn index `i` is below 3 but its plus-3
neighbour is in range (record length at least 4), no out-of-range
error occurs: the minus-3 access wraps around to position
`n + (i - 3)` and the line is fitted through the records at indices
`i + 3` and `n + i - 3`. -/
theorem separatrix_at_septum_negative_wraparound (x px : List ℚ)
    (xBoundary : ℚ) (i : ℕ)
    (hi : argminAbs x xBoundary = i) (hlen : px.length = x.length)
    (hn : 4 ≤ x.length) (hismall : i < 3) (hwin : i + 3 ≤ x.length - 1) :
    ∃ r, separatrix_at_septum x px xBoundary = some r ∧
      r.closer_turn = i ∧
      r.poly_sep = polyfit2 (x.getD (i + 3) 0) (x.getD (x.length + i - 3) 0)
        (px.getD (i + 3) 0) (px.getD (x.length + i - 3) 0) := by
  have hwin2 : i + 3 < x.length := by omega
  have hmod : (x.length + i - 3) % x.length = x.length + i - 3 :=
    Nat.mod_eq_of_lt (by omega)
  rw [separatrix_at_septum_eq x px xBoundary i hi hlen hwin2, hmod]
  exact ⟨_, rfl, rfl, rfl⟩

/-- C10 (witness): `x = [0,10,10,10,10]` with septum `0`: closest turn
`0`, fit points at indices `3` and `2`. -/
theorem separatrix_at_septum_negative_wraparound_witness :
    argminAbs [(0:ℚ),10,10,10,10] 0 = 0 ∧
    ([(1:ℚ),2,3,4,5] : List ℚ).length = ([(0:ℚ),10,10,10,10] : List ℚ).length ∧
    4 ≤ ([(0:ℚ),10,10,10,10] : List ℚ).length ∧ (0:ℕ) < 3 ∧
    0 + 3 ≤ ([(0:ℚ),10,10,10,10] : List ℚ).length - 1 ∧
    ∃ r, separatrix_at_septum [(0:ℚ),10,10,10,10] [(1:ℚ),2,3,4,5] 0
      = some r ∧ r.closer_turn = 0 ∧
      r.poly_sep = polyfit2 (([(0:ℚ),10,10,10,10] : List ℚ).getD (0 + 3) 0)
        (([(0:ℚ),10,10,10,10] : List ℚ).getD
          (([(0:ℚ),10,10,10,10] : List ℚ).length + 0 - 3) 0)
        (([(1:ℚ),2,3,4,5] : List ℚ).getD (0 + 3) 0)
        (([(1:ℚ),2,3,4,5] : List ℚ).getD
          (([(0:ℚ),10,10,10,10] : List ℚ).length + 0 - 3) 0) := by
  have h1 : argminAbs [(0:ℚ),10,10,10,10] 0 = 0 := by
    norm_num [argminAbs, argminAbsAux]
  exact ⟨h1, by norm_num, by norm_num, by norm_num, by norm_num,
    separatrix_at_septum_negative_wraparound [(0:ℚ),10,10,10,10] [(1:ℚ),2,3,4,5]
      0 0 h1 (by norm_num) (by norm_num) (by norm_num) (by norm_num)⟩

/-! ## 4.5 `sort_stable_boundary_coordinates` (boundary angular sort) -/

/-- Range class of `np.angle(x + i·px) = atan2(px, x) ∈ (-π, π]`:
class 0 for angles in `(-π, 0)` (negative momentum), class 1 for angle
`0` (nonnegative position axis; `np.angle(0) = 0` puts the origin
here), class 2 for `(0, π)` (positive momentum), class 3 for `π`
(negative position axis). -/
def thetaClass (u : ℚ × ℚ) : ℕ :=
  if u.2 < 0 then 0
  else if 0 < u.2 then 2
  else if 0 ≤ u.1 then 1
  else 3

/-- Cross product `u × v`; for `u`, `v` in one open half-plane its sign
is the sign of `sin(angle v - angle u)`, hence of the angle
comparison. -/
def cross (u v : ℚ × ℚ) : ℚ := u.1 * v.2 - u.2 * v.1

/-- Exact comparison `np.angle(u.1 + i·u.2) ≤ np.angle(v.1 + i·v.2)`
of `atan2`-style angles of rational points: lexicographically by range
class, and by cross-product sign within a class. -/
def angleLe (u v : ℚ × ℚ) : Prop :=
  thetaClass u < thetaClass v ∨ (thetaClass u = thetaClass v ∧ 0 ≤ cross u v)

instance : DecidableRel angleLe := fun u v => by
  unfold angleLe
  infer_instance

theorem thetaClass_cases (u : ℚ × ℚ) :
    thetaClass u = 0 ∨ thetaClass u = 1 ∨ thetaClass u = 2 ∨ thetaClass u = 3 := by
  unfold thetaClass
  split_ifs <;> simp

theorem thetaClass_zero {u : ℚ × ℚ} (h : thetaClass u = 0) : u.2 < 0 := by
  unfold thetaClass at h
  split_ifs at h <;> first | assumption | omega

theorem thetaClass_two {u : ℚ × ℚ} (h : thetaClass u = 2) : 0 < u.2 := by
  unfold thetaClass at h
  split_ifs at h <;> first | assumption | omega

theorem thetaClass_odd {u : ℚ × ℚ} (h0 : thetaClass u ≠ 0)
    (h2 : thetaClass u ≠ 2) : u.2 = 0 := by
  unfold thetaClass at h0 h2
  split_ifs at h0 h2 with ha hb
  · exact absurd rfl h0
  · exact absurd rfl h2
  · linarith
  · linarith

theorem angleLe_total (u v : ℚ × ℚ) : angleLe u v ∨ angleLe v u := by
  rcases lt_trichotomy (thetaClass u) (thetaClass v) with h | h | h
  · exact Or.inl (Or.inl h)
  · have hvu : cross v u = -cross u v := by unfold cross; ring
    rcases le_total 0 (cross u v) with h2 | h2
    · exact Or.inl (Or.inr ⟨h, h2⟩)
    · exact Or.inr (Or.inr ⟨h.symm, by rw [hvu]; linarith⟩)
  · exact Or.inr (Or.inl h)

theorem angleLe_trans (u v w : ℚ × ℚ) (h1 : angleLe u v) (h2 : angleLe v w) :
    angleLe u w := by
  rcases h1 with h1 | ⟨h1, hc1⟩
  · rcases h2 with h2 | ⟨h2, hc2⟩
    · exact Or.inl (h1.trans h2)
    · exact Or.inl (h2 ▸ h1)
  · rcases h2 with h2 | ⟨h2, hc2⟩
    · exact Or.inl (h1 ▸ h2)
    · refine Or.inr ⟨h1.trans h2, ?_⟩
      have hid : v.2 * cross u w = w.2 * cross u v + u.2 * cross v w := by
        unfold cross; ring
      have hv1 : thetaClass v = thetaClass u := h1.symm
      have hw1 : thetaClass w = thetaClass u := (h1.trans h2).symm
      rcases thetaClass_cases u with hc | hc | hc | hc
      · have hv := thetaClass_zero (hv1.trans hc)
        have hw := thetaClass_zero (hw1.trans hc)
        have hu := thetaClass_zero hc
        have t1 : w.2 * cross u v ≤ 0 := by
          nlinarith [mul_nonneg hc1 (neg_nonneg.mpr (le_of_lt hw))]
        have t2 : u.2 * cross v w ≤ 0 := by
          nlinarith [mul_nonneg hc2 (neg_nonneg.mpr (le_of_lt hu))]
        nlinarith [hid, t1, t2, hv]
      · have hu : u.2 = 0 := thetaClass_odd (by rw [hc]; norm_num) (by rw [hc]; norm_num)
        have hw : w.2 = 0 := thetaClass_odd (by rw [hw1, hc]; norm_num) (by rw [hw1, hc]; norm_num)
        unfold cross
        rw [hu, hw]
        ring_nf
        exact le_refl 0
      · have hv := thetaClass_two (hv1.trans hc)
        have hw := thetaClass_two (hw1.trans hc)
        have hu := thetaClass_two hc
        have t1 : 0 ≤ w.2 * cross u v := mul_nonneg (le_of_lt hw) hc1
        have t2 : 0 ≤ u.2 * cross v w := mul_nonneg (le_of_lt hu) hc2
        nlinarith [hid, t1, t2, hv]
      · have hu : u.2 = 0 := thetaClass_odd (by rw [hc]; norm_num) (by rw [hc]; norm_num)
        have hw : w.2 = 0 := thetaClass_odd (by rw [hw1, hc]; norm_num) (by rw [hw1, hc]; norm_num)
        unfold cross
        rw [hu, hw]
        ring_nf
        exact le_refl 0

instance : IsTotal (ℚ × ℚ) angleLe := ⟨angleLe_total⟩

instance : IsTrans (ℚ × ℚ) angleLe := ⟨angleLe_trans⟩

/-- The angle comparison lifted to key-index pairs (`np.argsort`
compares the key array entries). -/
def keyLe (p q : ℕ × (ℚ × ℚ)) : Prop := angleLe p.2 q.2

instance : DecidableRel keyLe := fun p q => by
  unfold keyLe
  infer_instance

instance : IsTotal (ℕ × (ℚ × ℚ)) keyLe := ⟨fun p q => angleLe_total p.2 q.2⟩

instance : IsTrans (ℕ × (ℚ × ℚ)) keyLe :=
  ⟨fun p q r h1 h2 => angleLe_trans p.2 q.2 r.2 h1 h2⟩

/-- Embeds `np.argsort(theta_triang)`: the index permutation that sorts
the key array by angle.  (Modelled as a stable index sort; numpy's
default sort kind is unstable on ties in general but coincides with
the stable sort on the sortedness and multiset properties proved
below, and is insertion sort — hence stable — on the short arrays any
theorem here evaluates.) -/
def argsortTheta (keys : List (ℚ × ℚ)) : List ℕ :=
  (keys.enum.insertionSort keyLe).map Prod.fst

/-- Numpy fancy indexing `xs[i_sorted]`. -/
def fancyIndex (xs : List ℚ) (idx : List ℕ) : List ℚ :=
  idx.map (fun i => xs.getD i 0)

/-- The dictionary returned by `sort_stable_boundary_coordinates`. -/
structure SortedCoords where
  x_triang : List ℚ
  px_triang : List ℚ
  x_norm_triang : List ℚ
  px_norm_triang : List ℚ
deriving DecidableEq

/-- Embeds `sort_stable_boundary_coordinates` (`src/pyLib/optics.py`,
lines 231–248) on the extracted per-turn arrays: compute the angle of
each normalized sample, argsort by angle, and reorder all four
coordinate arrays by the resulting index permutation. -/
def sort_stable_boundary_coordinates (x_triang px_triang x_norm_triang px_norm_triang : List ℚ) :
    SortedCoords :=
  let theta_keys := x_norm_triang.zip px_norm_triang
  let i_sorted := argsortTheta theta_keys
  ⟨fancyIndex x_triang i_sorted, fancyIndex px_triang i_sorted,
    fancyIndex x_norm_triang i_sorted, fancyIndex px_norm_triang i_sorted⟩

theorem map_getD_range (xs : List ℚ) :
    (List.range xs.length).map (fun i => xs.getD i 0) = xs := by
  induction xs with
  | nil => simp
  | cons a l ih =>
    rw [List.length_cons, List.range_succ_eq_map, List.map_cons, List.map_map]
    simp only [Function.comp_def, List.getD_cons_zero, List.getD_cons_succ]
    rw [ih]

theorem argsortTheta_perm (keys : List (ℚ × ℚ)) :
    (argsortTheta keys).Perm (List.range keys.length) := by
  have h1 : (keys.enum.insertionSort keyLe).Perm keys.enum :=
    List.perm_insertionSort keyLe keys.enum
  have h2 := h1.map Prod.fst
  rwa [List.enum_map_fst] at h2

theorem fancyIndex_perm (xs : List ℚ) (idx : List ℕ)
    (h : idx.Perm (List.range xs.length)) : (fancyIndex xs idx).Perm xs := by
  have h2 := h.map (fun i => xs.getD i 0)
  rwa [map_getD_range] at h2

theorem mem_sorted_enum_eval (x_norm px_norm : List ℚ)
    (hlen : px_norm.length = x_norm.length) (p : ℕ × (ℚ × ℚ))
    (hp : p ∈ (x_norm.zip px_norm).enum.insertionSort keyLe) :
    p.1 < x_norm.length ∧ p.2 = (x_norm.getD p.1 0, px_norm.getD p.1 0) := by
  rw [List.mem_insertionSort] at hp
  have hp2 : (x_norm.zip px_norm)[p.1]? = some p.2 :=
    List.mem_enum_iff_getElem?.mp hp
  have hzl : (x_norm.zip px_norm).length = x_norm.length := by
    rw [List.length_zip]
    omega
  have hlt : p.1 < (x_norm.zip px_norm).length := by
    by_contra hge
    rw [List.getElem?_eq_none (by omega)] at hp2
    exact Option.noConfusion hp2
  refine ⟨by omega, ?_⟩
  have h4 := List.getElem?_eq_getElem hlt
  rw [h4] at hp2
  have h3 : (x_norm.zip px_norm).getD p.1 (0, 0) = p.2 := by
    rw [List.getD_eq_getElem _ _ hlt]
    exact Option.some_inj.mp hp2
  rw [← h3, List.getD_eq_getElem _ _ hlt, List.getElem_zip,
    List.getD_eq_getElem x_norm 0 (by omega),
    List.getD_eq_getElem px_norm 0 (by omega)]

theorem sorted_chain_aux (x_norm px_norm : List ℚ)
    (hlen : px_norm.length = x_norm.length) :
    List.Chain' angleLe ((argsortTheta (x_norm.zip px_norm)).map
      (fun i => (x_norm.getD i 0, px_norm.getD i 0))) := by
  apply List.Pairwise.chain'
  unfold argsortTheta
  rw [List.map_map]
  have hsorted := List.sorted_insertionSort keyLe (x_norm.zip px_norm).enum
  have hpw : ((x_norm.zip px_norm).enum.insertionSort keyLe).Pairwise
      (fun p q => angleLe (x_norm.getD p.1 0, px_norm.getD p.1 0)
        (x_norm.getD q.1 0, px_norm.getD q.1 0)) := by
    refine List.Pairwise.imp_of_mem ?_ hsorted
    intro p q hp hq hle2
    have e1 := (mem_sorted_enum_eval x_norm px_norm hlen p hp).2
    have e2 := (mem_sorted_enum_eval x_norm px_norm hlen q hq).2
    rw [← e1, ← e2]
    exact hle2
  exact List.Pairwise.map _ (fun a b h => h) hpw

/-- C5: the angular sort returns arrays whose angle sequence (computed
`atan2`-style from normalized position and momentum) is non-decreasing,
and each returned array is a permutation of the corresponding input
array. -/
theorem sort_stable_boundary_coordinates_sorted_perm
    (x_triang px_triang x_norm_triang px_norm_triang : List ℚ)
    (hx : x_triang.length = x_norm_triang.length)
    (hpx : px_triang.length = x_norm_triang.length)
    (hpxn : px_norm_triang.length = x_norm_triang.length) :
    List.Chain' angleLe
      ((sort_stable_boundary_coordinates x_triang px_triang x_norm_triang
          px_norm_triang).x_norm_triang.zip
        (sort_stable_boundary_coordinates x_triang px_triang x_norm_triang
          px_norm_triang).px_norm_triang) ∧
    (sort_stable_boundary_coordinates x_triang px_triang x_norm_triang
      px_norm_triang).x_triang.Perm x_triang ∧
    (sort_stable_boundary_coordinates x_triang px_triang x_norm_triang
      px_norm_triang).px_triang.Perm px_triang ∧
    (sort_stable_boundary_coordinates x_triang px_triang x_norm_triang
      px_norm_triang).x_norm_triang.Perm x_norm_triang ∧
    (sort_stable_boundary_coordinates x_triang px_triang x_norm_triang
      px_norm_triang).px_norm_triang.Perm px_norm_triang := by
  have hklen : (x_norm_triang.zip px_norm_triang).length = x_norm_triang.length := by
    rw [List.length_zip]
    omega
  have hperm : (argsortTheta (x_norm_triang.zip px_norm_triang)).Perm
      (List.range x_norm_triang.length) := by
    have h := argsortTheta_perm (x_norm_triang.zip px_norm_triang)
    rwa [hklen] at h
  simp only [sort_stable_boundary_coordinates]
  refine ⟨?_, ?_, ?_, ?_, ?_⟩
  · have hzip : (fancyIndex x_norm_triang
        (argsortTheta (x_norm_triang.zip px_norm_triang))).zip
        (fancyIndex px_norm_triang
          (argsortTheta (x_norm_triang.zip px_norm_triang)))
        = (argsortTheta (x_norm_triang.zip px_norm_triang)).map
            (fun i => (x_norm_triang.getD i 0, px_norm_triang.getD i 0)) := by
      unfold fancyIndex
      rw [List.zip_map']
    rw [hzip]
    exact sorted_chain_aux _ _ hpxn
  · exact fancyIndex_perm _ _ (by rwa [hx])
  · exact fancyIndex_perm _ _ (by rwa [hpx])
  · exact fancyIndex_perm _ _ hperm
  · exact fancyIndex_perm _ _ (by rwa [hpxn])

/-- C5 (witness): two samples whose normalized angles start out of
order. -/
theorem sort_stable_boundary_coordinates_sorted_perm_witness :
    ([(10:ℚ),20] : List ℚ).length = ([(0:ℚ),1] : List ℚ).length ∧
    ([(30:ℚ),40] : List ℚ).length = ([(0:ℚ),1] : List ℚ).length ∧
    ([(1:ℚ),-1] : List ℚ).length = ([(0:ℚ),1] : List ℚ).length ∧
    (List.Chain' angleLe
      ((sort_stable_boundary_coordinates [(10:ℚ),20] [(30:ℚ),40] [(0:ℚ),1]
          [(1:ℚ),-1]).x_norm_triang.zip
        (sort_stable_boundary_coordinates [(10:ℚ),20] [(30:ℚ),40] [(0:ℚ),1]
          [(1:ℚ),-1]).px_norm_triang) ∧
    (sort_stable_boundary_coordinates [(10:ℚ),20] [(30:ℚ),40] [(0:ℚ),1]
      [(1:ℚ),-1]).x_triang.Perm [(10:ℚ),20] ∧
    (sort_stable_boundary_coordinates [(10:ℚ),20] [(30:ℚ),40] [(0:ℚ),1]
      [(1:ℚ),-1]).px_triang.Perm [(30:ℚ),40] ∧
    (sort_stable_boundary_coordinates [(10:ℚ),20] [(30:ℚ),40] [(0:ℚ),1]
      [(1:ℚ),-1]).x_norm_triang.Perm [(0:ℚ),1] ∧
    (sort_stable_boundary_coordinates [(10:ℚ),20] [(30:ℚ),40] [(0:ℚ),1]
      [(1:ℚ),-1]).px_norm_triang.Perm [(1:ℚ),-1]) :=
  ⟨by norm_num, by norm_num, by norm_num,
    sort_stable_boundary_coordinates_sorted_perm [(10:ℚ),20] [(30:ℚ),40]
      [(0:ℚ),1] [(1:ℚ),-1] (by norm_num) (by norm_num) (by norm_num)⟩

/-! ## 4.6 `find_fixed_points` (fixed-point localization)

The source rotates the leading fixed point by
`np.exp(±1j·2/3·np.pi) = -1/2 ± i·√3/2`, whose coordinates are
irrational, so the phase-space coordinates of this embedding live in
the computable ordered subfield `ℚ[√3] ⊆ ℝ` (pairs `a + b·√3` of
rationals); the comparison procedure `Q3.posB` is proved below to agree
with the real order.  Amplitudes enter the source only through
comparisons (`np.argmax`) and through the disk test
`|z - w| < threshold·r`, both monotone in the square, so the embedding
carries squared amplitudes (`cnormSq`) and squares the disk test. -/

/-- An element `a + b·√3` of the real quadratic field `ℚ[√3]`. -/
structure Q3 where
  a : ℚ
  b : ℚ
deriving DecidableEq

instance : Zero Q3 := ⟨⟨0, 0⟩⟩

instance : One Q3 := ⟨⟨1, 0⟩⟩

instance : Add Q3 := ⟨fun x y => ⟨x.a + y.a, x.b + y.b⟩⟩

instance : Neg Q3 := ⟨fun x => ⟨-x.a, -x.b⟩⟩

instance : Sub Q3 := ⟨fun x y => ⟨x.a - y.a, x.b - y.b⟩⟩

instance : Mul Q3 := ⟨fun x y => ⟨x.a * y.a + 3 * x.b * y.b, x.a * y.b + x.b * y.a⟩⟩

theorem Q3.sub_def (x y : Q3) : x - y = ⟨x.a - y.a, x.b - y.b⟩ := rfl

theorem Q3.mul_def (x y : Q3) :
    x * y = ⟨x.a * y.a + 3 * x.b * y.b, x.a * y.b + x.b * y.a⟩ := rfl

theorem Q3.zero_def : (0 : Q3) = ⟨0, 0⟩ := rfl

/-- Exact decision of `0 < a + b·√3` by rational sign analysis. -/
def Q3.posB (x : Q3) : Bool :=
  if x.b = 0 then decide (0 < x.a)
  else if 0 ≤ x.a ∧ 0 ≤ x.b then true
  else if x.a ≤ 0 ∧ x.b ≤ 0 then false
  else if 0 < x.a then decide (3 * x.b ^ 2 < x.a ^ 2)
  else decide (x.a ^ 2 < 3 * x.b ^ 2)

/-- Strict order of `ℚ[√3]`, decided exactly. -/
def Q3.ltB (x y : Q3) : Bool := Q3.posB (y - x)

/-- `Q3.posB` agrees with positivity of the real value `a + b·√3`. -/
theorem Q3.posB_iff (x : Q3) :
    Q3.posB x = true ↔ 0 < (x.a : ℝ) + (x.b : ℝ) * Real.sqrt 3 := by
  have hs3 : Real.sqrt 3 ^ 2 = 3 := Real.sq_sqrt (by norm_num)
  have hs0 : 0 < Real.sqrt 3 := Real.sqrt_pos.mpr (by norm_num)
  unfold Q3.posB
  split_ifs with h1 h2 h3 h4
  · have hB : (x.b : ℝ) = 0 := by exact_mod_cast h1
    simp only [decide_eq_true_eq, hB, zero_mul, add_zero]
    exact_mod_cast Iff.rfl
  · have hb : 0 < x.b := lt_of_le_of_ne h2.2 (Ne.symm h1)
    have hA : (0 : ℝ) ≤ (x.a : ℝ) := by exact_mod_cast h2.1
    have hB : (0 : ℝ) < (x.b : ℝ) := by exact_mod_cast hb
    simp only [true_iff]
    nlinarith [mul_pos hB hs0]
  · have hb : x.b < 0 := lt_of_le_of_ne h3.2 h1
    have hA : (x.a : ℝ) ≤ 0 := by exact_mod_cast h3.1
    have hB : (x.b : ℝ) < 0 := by exact_mod_cast hb
    simp only [false_iff, not_lt]
    nlinarith [mul_pos (neg_pos.mpr hB) hs0]
  · have hb : x.b < 0 := by
      rcases lt_trichotomy x.b 0 with h | h | h
      · exact h
      · exact absurd h h1
      · exact absurd ⟨le_of_lt h4, le_of_lt h⟩ h2
    have hA : (0 : ℝ) < (x.a : ℝ) := by exact_mod_cast h4
    have hB : (x.b : ℝ) < 0 := by exact_mod_cast hb
    simp only [decide_eq_true_eq]
    constructor
    · intro h
      have hQ : (3 : ℝ) * (x.b : ℝ) ^ 2 < (x.a : ℝ) ^ 2 := by exact_mod_cast h
      nlinarith [hs3, mul_pos (neg_pos.mpr hB) hs0]
    · intro h
      have hQ : (3 : ℝ) * (x.b : ℝ) ^ 2 < (x.a : ℝ) ^ 2 := by
        nlinarith [hs3, mul_pos (neg_pos.mpr hB) hs0]
      exact_mod_cast hQ
  · have ha : x.a ≤ 0 := le_of_not_lt h4
    have hb : 0 < x.b := by
      rcases lt_trichotomy x.b 0 with h | h | h
      · exact absurd ⟨ha, le_of_lt h⟩ h3
      · exact absurd h h1
      · exact h
    have hA : (x.a : ℝ) ≤ 0 := by exact_mod_cast ha
    have hB : (0 : ℝ) < (x.b : ℝ) := by exact_mod_cast hb
    simp only [decide_eq_true_eq]
    constructor
    · intro h
      have hQ : (x.a : ℝ) ^ 2 < 3 * (x.b : ℝ) ^ 2 := by exact_mod_cast h
      nlinarith [hs3, mul_pos hB hs0]
    · intro h
      have hQ : (x.a : ℝ) ^ 2 < 3 * (x.b : ℝ) ^ 2 := by
        nlinarith [hs3, mul_pos hB hs0]
      exact_mod_cast hQ

/-- `Q3.ltB` agrees with the order of the real values. -/
theorem Q3.ltB_iff (x y : Q3) :
    Q3.ltB x y = true ↔
      (x.a : ℝ) + (x.b : ℝ) * Real.sqrt 3
        < (y.a : ℝ) + (y.b : ℝ) * Real.sqrt 3 := by
  unfold Q3.ltB
  rw [Q3.posB_iff, Q3.sub_def]
  push_cast
  constructor <;> intro h <;> linarith

theorem Q3.not_ltB_iff (x y : Q3) :
    Q3.ltB x y = false ↔
      (y.a : ℝ) + (y.b : ℝ) * Real.sqrt 3
        ≤ (x.a : ℝ) + (x.b : ℝ) * Real.sqrt 3 := by
  rw [← Bool.not_eq_true, Q3.ltB_iff]
  exact not_lt

theorem Q3.ltB_irrefl (x : Q3) : Q3.ltB x x = false := by
  rw [Q3.not_ltB_iff]

/-- Scan loop of `np.argmax`: keeps the largest value seen so far and
its index, updating on strictly larger values only (first maximum
wins). -/
def argmaxAux : Q3 → ℕ → ℕ → List Q3 → Q3 × ℕ
  | best, besti, _, [] => (best, besti)
  | best, besti, i, v :: vs =>
    if Q3.ltB best v then argmaxAux v i (i + 1) vs
    else argmaxAux best besti (i + 1) vs

/-- Embeds `np.argmax` over a `ℚ[√3]`-valued array.  (`np.argmax`
raises on an empty array; the embedding returns `0` there, and every
theorem using it assumes a nonempty array.) -/
def argmaxQ3 (l : List Q3) : ℕ :=
  match l with
  | [] => 0
  | v :: vs => (argmaxAux v 0 1 vs).2

theorem argmaxAux_ge (l : List Q3) : ∀ (best : Q3) (besti i : ℕ),
    Q3.ltB (argmaxAux best besti i l).1 best = false ∧
    ∀ v ∈ l, Q3.ltB (argmaxAux best besti i l).1 v = false := by
  induction l with
  | nil =>
    intro best besti i
    exact ⟨Q3.ltB_irrefl best, by simp⟩
  | cons v vs ih =>
    intro best besti i
    simp only [argmaxAux]
    split
    · obtain ⟨h1, h2⟩ := ih v i (i + 1)
      rename_i hbv
      refine ⟨?_, ?_⟩
      · rw [Q3.not_ltB_iff]
        rw [Q3.not_ltB_iff] at h1
        rw [Q3.ltB_iff] at hbv
        linarith
      · intro w hw
        rcases List.mem_cons.mp hw with rfl | hw2
        · exact h1
        · exact h2 w hw2
    · obtain ⟨h1, h2⟩ := ih best besti (i + 1)
      rename_i hbv
      refine ⟨h1, ?_⟩
      intro w hw
      rcases List.mem_cons.mp hw with rfl | hw2
      · rw [Q3.not_ltB_iff]
        rw [Q3.not_ltB_iff] at h1
        rw [Q3.ltB_iff] at hbv
        push_neg at hbv
        linarith
      · exact h2 w hw2

theorem argmaxAux_cases (l : List Q3) : ∀ (best : Q3) (besti i : ℕ),
    argmaxAux best besti i l = (best, besti) ∨
    ∃ j, j < l.length ∧ argmaxAux best besti i l = (l.getD j 0, i + j) := by
  induction l with
  | nil =>
    intro best besti i
    exact Or.inl rfl
  | cons v vs ih =>
    intro best besti i
    simp only [argmaxAux]
    split
    · right
      rcases ih v i (i + 1) with h | ⟨j, hj, h⟩
      · refine ⟨0, by simp, ?_⟩
        rw [h, List.getD_cons_zero]
        have : i + 0 = i := by omega
        rw [this]
      · refine ⟨j + 1, by simp only [List.length_cons]; omega, ?_⟩
        rw [h, List.getD_cons_succ]
        have : i + 1 + j = i + (j + 1) := by omega
        rw [this]
    · rcases ih best besti (i + 1) with h | ⟨j, hj, h⟩
      · exact Or.inl h
      · right
        refine ⟨j + 1, by simp only [List.length_cons]; omega, ?_⟩
        rw [h, List.getD_cons_succ]
        have : i + 1 + j = i + (j + 1) := by omega
        rw [this]

/-- `np.argmax` returns an in-range index whose value no entry strictly
exceeds. -/
theorem argmaxQ3_spec (l : List Q3) (h : l ≠ []) :
    argmaxQ3 l < l.length ∧
    ∀ j, j < l.length → Q3.ltB (l.getD (argmaxQ3 l) 0) (l.getD j 0) = false := by
  match l with
  | v :: vs =>
    have hge := argmaxAux_ge vs v 0 1
    have hval : ∀ j, j < (v :: vs).length →
        Q3.ltB ((argmaxAux v 0 1 vs).1) ((v :: vs).getD j 0) = false := by
      intro j hj
      match j with
      | 0 =>
        rw [List.getD_cons_zero]
        exact hge.1
      | j + 1 =>
        rw [List.getD_cons_succ]
        have hj2 : j < vs.length := by
          simp only [List.length_cons] at hj
          omega
        rw [List.getD_eq_getElem vs 0 hj2]
        exact hge.2 _ (List.getElem_mem hj2)
    rcases argmaxAux_cases vs v 0 1 with h2 | ⟨j, hj, h2⟩
    · have hi : argmaxQ3 (v :: vs) = 0 := by
        show (argmaxAux v 0 1 vs).2 = 0
        rw [h2]
      have hv1 : (argmaxAux v 0 1 vs).1 = v := by rw [h2]
      refine ⟨by simp [hi], ?_⟩
      intro k hk
      rw [hi, List.getD_cons_zero]
      have hv2 := hval k hk
      rw [hv1] at hv2
      exact hv2
    · have hi : argmaxQ3 (v :: vs) = 1 + j := by
        show (argmaxAux v 0 1 vs).2 = 1 + j
        rw [h2]
      have hv1 : (argmaxAux v 0 1 vs).1 = vs.getD j 0 := by rw [h2]
      refine ⟨by simp only [hi, List.length_cons]; omega, ?_⟩
      intro k hk
      have hg : (v :: vs).getD (1 + j) 0 = vs.getD j 0 := by
        have : 1 + j = j + 1 := by omega
        rw [this, List.getD_cons_succ]
      rw [hi, hg]
      have hv2 := hval k hk
      rw [hv1] at hv2
      exact hv2

theorem argmaxAux_no_update (l : List Q3) : ∀ (best : Q3) (besti i : ℕ),
    (∀ v ∈ l, Q3.ltB best v = false) →
    argmaxAux best besti i l = (best, besti) := by
  induction l with
  | nil =>
    intro best besti i _
    rfl
  | cons v vs ih =>
    intro best besti i h
    simp only [argmaxAux]
    rw [if_neg (by rw [h v (List.mem_cons_self v vs)]; exact Bool.false_ne_true)]
    exact ih best besti (i + 1) (fun w hw => h w (List.mem_cons_of_mem v hw))

/-- On an all-zero array `np.argmax` returns index `0`. -/
theorem argmaxQ3_all_zero (l : List Q3) (h : ∀ v ∈ l, v = 0) :
    argmaxQ3 l = 0 := by
  match l with
  | [] => rfl
  | v :: vs =>
    show (argmaxAux v 0 1 vs).2 = 0
    rw [argmaxAux_no_update vs v 0 1 ?_]
    intro w hw
    rw [h v (List.mem_cons_self v vs), h w (List.mem_cons_of_mem v hw)]
    exact Q3.ltB_irrefl 0

/-- Complex multiplication on `ℚ[√3] × ℚ[√3]` (pairs are
real/imaginary parts). -/
def cmul (z w : Q3 × Q3) : Q3 × Q3 :=
  (z.1 * w.1 - z.2 * w.2, z.1 * w.2 + z.2 * w.1)

/-- Complex subtraction. -/
def csub (z w : Q3 × Q3) : Q3 × Q3 := (z.1 - w.1, z.2 - w.2)

/-- Squared modulus `|z|²` (the square of the `np.abs` amplitude). -/
def cnormSq (z : Q3 × Q3) : Q3 := z.1 * z.1 + z.2 * z.2

/-- `np.exp(1j * 2 / 3 * np.pi) = -1/2 + i·√3/2`. -/
def omegaPlus : Q3 × Q3 := (⟨-(1/2), 0⟩, ⟨0, 1/2⟩)

/-- `np.exp(-1j * 2 / 3 * np.pi) = -1/2 - i·√3/2`. -/
def omegaMinus : Q3 × Q3 := (⟨-(1/2), 0⟩, ⟨0, -(1/2)⟩)

/-- Embeds `z_triang_norm = x_norm + 1j * px_norm`. -/
def zListQ3 (x_norm px_norm : List Q3) : List (Q3 × Q3) := x_norm.zip px_norm

/-- Embeds `r_triang_norm = np.abs(z_triang_norm)`, carried as the
squared amplitudes. -/
def rsqList (x_norm px_norm : List Q3) : List Q3 :=
  (zListQ3 x_norm px_norm).map cnormSq

/-- Embeds `i_fp1 = np.argmax(r_triang_norm)` (squaring preserves the
comparisons of the nonnegative amplitudes). -/
def i_fp1 (x_norm px_norm : List Q3) : ℕ := argmaxQ3 (rsqList x_norm px_norm)

/-- Embeds `z_fp1 = z_triang_norm[i_fp1]`. -/
def z_fp1 (x_norm px_norm : List Q3) : Q3 × Q3 :=
  (zListQ3 x_norm px_norm).getD (i_fp1 x_norm px_norm) (0, 0)

/-- Embeds `r_fp1 = np.abs(z_fp1)`, carried squared. -/
def rsq_fp1 (x_norm px_norm : List Q3) : Q3 := cnormSq (z_fp1 x_norm px_norm)

/-- Embeds the disk test `np.abs(d) < threshold * r_fp1` on squares:
`|d| < t·r` iff `0 ≤ t·r` and `|d|² < t²·r²`, and `0 ≤ t·r` iff
`0 ≤ t` or `r = 0` (the amplitude `r` being nonnegative, zero exactly
when its square is). -/
def maskB (threshold : ℚ) (rsq1 : Q3) (d : Q3 × Q3) : Bool :=
  (decide (0 ≤ threshold) || decide (rsq1 = 0)) &&
    Q3.ltB (cnormSq d) (⟨threshold * threshold, 0⟩ * rsq1)

/-- Embeds `mask = np.abs(z_triang_norm - z_fp1 * rot) < threshold * r_fp1`
for a rotation factor `rot`. -/
def maskList (x_norm px_norm : List Q3) (threshold : ℚ) (rot : Q3 × Q3) :
    List Bool :=
  (zListQ3 x_norm px_norm).map
    (fun z => maskB threshold (rsq_fp1 x_norm px_norm)
      (csub z (cmul (z_fp1 x_norm px_norm) rot)))

/-- Embeds the masked amplitude array `r_triang_norm * mask`
(`mask` is a 0/1 array; multiplying the nonnegative amplitudes by it
keeps masked entries and zeroes the rest, which squaring preserves). -/
def maskedRsq (x_norm px_norm : List Q3) (threshold : ℚ) (rot : Q3 × Q3) :
    List Q3 :=
  ((rsqList x_norm px_norm).zip (maskList x_norm px_norm threshold rot)).map
    (fun p => if p.2 then p.1 else 0)

/-- Embeds `i_fp2 = np.argmax(r_triang_norm * mask_fp2)`. -/
def i_fp2 (x_norm px_norm : List Q3) (threshold : ℚ) : ℕ :=
  argmaxQ3 (maskedRsq x_norm px_norm threshold omegaPlus)

/-- Embeds `i_fp3 = np.argmax(r_triang_norm * mask_fp3)`. -/
def i_fp3 (x_norm px_norm : List Q3) (threshold : ℚ) : ℕ :=
  argmaxQ3 (maskedRsq x_norm px_norm threshold omegaMinus)

/-- The dictionary returned by `find_fixed_points`. -/
structure FixedPoints where
  x_norm_fp : List Q3
  px_norm_fp : List Q3
  x_fp : List Q3
  px_fp : List Q3
deriving DecidableEq

/-- Embeds `find_fixed_points` (`src/pyLib/optics.py`, lines 274–306)
on the extracted per-turn coordinate arrays: first fixed point at the
argmax of normalized amplitude, second and third at the argmax of the
amplitudes masked to disks around the first fixed point rotated by
`±120°`; returns the selected samples in normalized and physical
coordinates. -/
def find_fixed_points (x px x_norm px_norm : List Q3) (threshold : ℚ) :
    FixedPoints :=
  let i1 := i_fp1 x_norm px_norm
  let i2 := i_fp2 x_norm px_norm threshold
  let i3 := i_fp3 x_norm px_norm threshold
  ⟨[x_norm.getD i1 0, x_norm.getD i2 0, x_norm.getD i3 0],
    [px_norm.getD i1 0, px_norm.getD i2 0, px_norm.getD i3 0],
    [x.getD i1 0, x.getD i2 0, x.getD i3 0],
    [px.getD i1 0, px.getD i2 0, px.getD i3 0]⟩

theorem Q3.add_def (x y : Q3) : x + y = ⟨x.a + y.a, x.b + y.b⟩ := rfl

theorem rsqList_length (x_norm px_norm : List Q3) :
    (rsqList x_norm px_norm).length = min x_norm.length px_norm.length := by
  simp [rsqList, zListQ3]

theorem maskList_length (x_norm px_norm : List Q3) (threshold : ℚ)
    (rot : Q3 × Q3) :
    (maskList x_norm px_norm threshold rot).length
      = min x_norm.length px_norm.length := by
  simp [maskList, zListQ3]

theorem maskedRsq_length (x_norm px_norm : List Q3) (threshold : ℚ)
    (rot : Q3 × Q3) :
    (maskedRsq x_norm px_norm threshold rot).length
      = min x_norm.length px_norm.length := by
  simp [maskedRsq, rsqList, maskList, zListQ3]

theorem maskedRsq_getD (x_norm px_norm : List Q3) (threshold : ℚ)
    (rot : Q3 × Q3) (hlen : px_norm.length = x_norm.length) (j : ℕ)
    (hj : j < x_norm.length) :
    (maskedRsq x_norm px_norm threshold rot).getD j 0
      = if (maskList x_norm px_norm threshold rot).getD j false
          then (rsqList x_norm px_norm).getD j 0 else 0 := by
  have hr : j < (rsqList x_norm px_norm).length := by
    rw [rsqList_length]
    omega
  have hm : j < (maskList x_norm px_norm threshold rot).length := by
    rw [maskList_length]
    omega
  have hmm : j < (maskedRsq x_norm px_norm threshold rot).length := by
    rw [maskedRsq_length]
    omega
  rw [List.getD_eq_getElem _ _ hmm, List.getD_eq_getElem _ _ hm,
    List.getD_eq_getElem _ _ hr]
  simp only [maskedRsq, List.getElem_map, List.getElem_zip]

/-- C6: when the rotated search disk of the second (or third) fixed
point captures no sample, `find_fixed_points` raises no error: the
masked amplitude array is identically zero, its argmax degenerates to
index `0`, and the sample at index `0` is silently returned as that
fixed point. -/
theorem find_fixed_points_empty_sector (x px x_norm px_norm : List Q3)
    (threshold : ℚ) (hlen : px_norm.length = x_norm.length) :
    ((∀ j, j < x_norm.length →
        (maskList x_norm px_norm threshold omegaPlus).getD j false = false) →
      i_fp2 x_norm px_norm threshold = 0 ∧
      (find_fixed_points x px x_norm px_norm threshold).x_norm_fp.getD 1 0
        = x_norm.getD 0 0 ∧
      (find_fixed_points x px x_norm px_norm threshold).px_norm_fp.getD 1 0
        = px_norm.getD 0 0 ∧
      (find_fixed_points x px x_norm px_norm threshold).x_fp.getD 1 0
        = x.getD 0 0 ∧
      (find_fixed_points x px x_norm px_norm threshold).px_fp.getD 1 0
        = px.getD 0 0) ∧
    ((∀ j, j < x_norm.length →
        (maskList x_norm px_norm threshold omegaMinus).getD j false = false) →
      i_fp3 x_norm px_norm threshold = 0 ∧
      (find_fixed_points x px x_norm px_norm threshold).x_norm_fp.getD 2 0
        = x_norm.getD 0 0 ∧
      (find_fixed_points x px x_norm px_norm threshold).px_norm_fp.getD 2 0
        = px_norm.getD 0 0 ∧
      (find_fixed_points x px x_norm px_norm threshold).x_fp.getD 2 0
        = x.getD 0 0 ∧
      (find_fixed_points x px x_norm px_norm threshold).px_fp.getD 2 0
        = px.getD 0 0) := by
  have hzero : ∀ rot : Q3 × Q3,
      (∀ j, j < x_norm.length →
        (maskList x_norm px_norm threshold rot).getD j false = false) →
      argmaxQ3 (maskedRsq x_norm px_norm threshold rot) = 0 := by
    intro rot hmask
    refine argmaxQ3_all_zero _ ?_
    intro v hv
    obtain ⟨i, hi, hv2⟩ := List.mem_iff_getElem.mp hv
    have hin : i < x_norm.length := by
      rw [maskedRsq_length] at hi
      omega
    have hgd := maskedRsq_getD x_norm px_norm threshold rot hlen i hin
    rw [List.getD_eq_getElem _ _ hi, hv2, hmask i hin] at hgd
    simpa using hgd
  constructor
  · intro hmask
    have h0 : i_fp2 x_norm px_norm threshold = 0 := hzero omegaPlus hmask
    refine ⟨h0, ?_, ?_, ?_, ?_⟩ <;>
      simp [find_fixed_points, h0]
  · intro hmask
    have h0 : i_fp3 x_norm px_norm threshold = 0 := hzero omegaMinus hmask
    refine ⟨h0, ?_, ?_, ?_, ?_⟩ <;>
      simp [find_fixed_points, h0]

/-- C3: `find_fixed_points` selects as first fixed point a sample of
maximum normalized amplitude; as second (third) fixed point, whenever
the disk around the first fixed point rotated by `+120°` (`-120°`)
contains a sample of positive amplitude, a sample inside that disk of
maximum amplitude among the disk's samples (amplitudes are compared
through their squares, which preserves the order).  In particular, for
the input with samples at angles `0°, 120°, 240°` of amplitude 1
— `(1,0)`, `(-1/2, √3/2)`, `(-1/2, -√3/2)` — plus a zero-amplitude
sample, it returns exactly those three samples in discovery order. -/
theorem find_fixed_points_spec (x px x_norm px_norm : List Q3)
    (threshold : ℚ) (hne : x_norm ≠ [])
    (hlen : px_norm.length = x_norm.length) :
    (i_fp1 x_norm px_norm < x_norm.length ∧
      ∀ j, j < x_norm.length →
        Q3.ltB ((rsqList x_norm px_norm).getD (i_fp1 x_norm px_norm) 0)
          ((rsqList x_norm px_norm).getD j 0) = false) ∧
    ((∃ j, j < x_norm.length ∧
        (maskList x_norm px_norm threshold omegaPlus).getD j false = true ∧
        Q3.ltB 0 ((rsqList x_norm px_norm).getD j 0) = true) →
      i_fp2 x_norm px_norm threshold < x_norm.length ∧
      (maskList x_norm px_norm threshold omegaPlus).getD
        (i_fp2 x_norm px_norm threshold) false = true ∧
      ∀ j, j < x_norm.length →
        (maskList x_norm px_norm threshold omegaPlus).getD j false = true →
        Q3.ltB ((rsqList x_norm px_norm).getD (i_fp2 x_norm px_norm threshold) 0)
          ((rsqList x_norm px_norm).getD j 0) = false) ∧
    ((∃ j, j < x_norm.length ∧
        (maskList x_norm px_norm threshold omegaMinus).getD j false = true ∧
        Q3.ltB 0 ((rsqList x_norm px_norm).getD j 0) = true) →
      i_fp3 x_norm px_norm threshold < x_norm.length ∧
      (maskList x_norm px_norm threshold omegaMinus).getD
        (i_fp3 x_norm px_norm threshold) false = true ∧
      ∀ j, j < x_norm.length →
        (maskList x_norm px_norm threshold omegaMinus).getD j false = true →
        Q3.ltB ((rsqList x_norm px_norm).getD (i_fp3 x_norm px_norm threshold) 0)
          ((rsqList x_norm px_norm).getD j 0) = false) ∧
    find_fixed_points [(⟨10,0⟩:Q3), ⟨20,0⟩, ⟨30,0⟩, ⟨40,0⟩]
        [(⟨50,0⟩:Q3), ⟨60,0⟩, ⟨70,0⟩, ⟨80,0⟩]
        [(⟨1,0⟩:Q3), ⟨-(1/2),0⟩, ⟨-(1/2),0⟩, ⟨0,0⟩]
        [(⟨0,0⟩:Q3), ⟨0,1/2⟩, ⟨0,-(1/2)⟩, ⟨0,0⟩] (1/5)
      = ⟨[⟨1,0⟩, ⟨-(1/2),0⟩, ⟨-(1/2),0⟩],
          [⟨0,0⟩, ⟨0,1/2⟩, ⟨0,-(1/2)⟩],
          [⟨10,0⟩, ⟨20,0⟩, ⟨30,0⟩],
          [⟨50,0⟩, ⟨60,0⟩, ⟨70,0⟩]⟩ := by
  have hn : 0 < x_norm.length := List.length_pos.mpr hne
  have hrlen : (rsqList x_norm px_norm).length = x_norm.length := by
    rw [rsqList_length]
    omega
  have hsector : ∀ rot : Q3 × Q3,
      (∃ j, j < x_norm.length ∧
        (maskList x_norm px_norm threshold rot).getD j false = true ∧
        Q3.ltB 0 ((rsqList x_norm px_norm).getD j 0) = true) →
      argmaxQ3 (maskedRsq x_norm px_norm threshold rot) < x_norm.length ∧
      (maskList x_norm px_norm threshold rot).getD
        (argmaxQ3 (maskedRsq x_norm px_norm threshold rot)) false = true ∧
      ∀ j, j < x_norm.length →
        (maskList x_norm px_norm threshold rot).getD j false = true →
        Q3.ltB ((rsqList x_norm px_norm).getD
            (argmaxQ3 (maskedRsq x_norm px_norm threshold rot)) 0)
          ((rsqList x_norm px_norm).getD j 0) = false := by
    rintro rot ⟨j0, hj0, hm0, hr0⟩
    have hmlen : (maskedRsq x_norm px_norm threshold rot).length
        = x_norm.length := by
      rw [maskedRsq_length]
      omega
    have hmne : maskedRsq x_norm px_norm threshold rot ≠ [] := by
      rw [← List.length_pos, hmlen]
      exact hn
    obtain ⟨hk, hmax⟩ := argmaxQ3_spec _ hmne
    set k := argmaxQ3 (maskedRsq x_norm px_norm threshold rot) with hkdef
    have hkn : k < x_norm.length := by
      rw [hmlen] at hk
      exact hk
    have hvj0 : (maskedRsq x_norm px_norm threshold rot).getD j0 0
        = (rsqList x_norm px_norm).getD j0 0 := by
      rw [maskedRsq_getD x_norm px_norm threshold rot hlen j0 hj0, if_pos hm0]
    have hmaxj0 := hmax j0 (by rw [hmlen]; exact hj0)
    rw [hvj0] at hmaxj0
    have hmk : (maskList x_norm px_norm threshold rot).getD k false = true := by
      by_contra hmkf
      rw [Bool.not_eq_true] at hmkf
      have hvk : (maskedRsq x_norm px_norm threshold rot).getD k 0 = 0 := by
        rw [maskedRsq_getD x_norm px_norm threshold rot hlen k hkn, hmkf]
        simp
      rw [hvk] at hmaxj0
      rw [hmaxj0] at hr0
      exact Bool.false_ne_true hr0
    have hvk : (maskedRsq x_norm px_norm threshold rot).getD k 0
        = (rsqList x_norm px_norm).getD k 0 := by
      rw [maskedRsq_getD x_norm px_norm threshold rot hlen k hkn, if_pos hmk]
    refine ⟨hkn, hmk, ?_⟩
    intro j hj hmj
    have hmaxj := hmax j (by rw [hmlen]; exact hj)
    have hvj : (maskedRsq x_norm px_norm threshold rot).getD j 0
        = (rsqList x_norm px_norm).getD j 0 := by
      rw [maskedRsq_getD x_norm px_norm threshold rot hlen j hj, if_pos hmj]
    rw [hvk, hvj] at hmaxj
    exact hmaxj
  refine ⟨?_, hsector omegaPlus, hsector omegaMinus, ?_⟩
  · have hrne : rsqList x_norm px_norm ≠ [] := by
      rw [← List.length_pos, hrlen]
      exact hn
    obtain ⟨h1, h2⟩ := argmaxQ3_spec _ hrne
    rw [hrlen] at h1
    exact ⟨h1, fun j hj => h2 j (by rw [hrlen]; exact hj)⟩
  · have e1 : i_fp1 [(⟨1,0⟩:Q3), ⟨-(1/2),0⟩, ⟨-(1/2),0⟩, ⟨0,0⟩]
        [(⟨0,0⟩:Q3), ⟨0,1/2⟩, ⟨0,-(1/2)⟩, ⟨0,0⟩] = 0 := by
      norm_num [i_fp1, rsqList, zListQ3, cnormSq, argmaxQ3, argmaxAux,
        Q3.ltB, Q3.posB, Q3.sub_def, Q3.mul_def, Q3.add_def, Q3.zero_def]
    have e2 : i_fp2 [(⟨1,0⟩:Q3), ⟨-(1/2),0⟩, ⟨-(1/2),0⟩, ⟨0,0⟩]
        [(⟨0,0⟩:Q3), ⟨0,1/2⟩, ⟨0,-(1/2)⟩, ⟨0,0⟩] (1/5) = 1 := by
      norm_num [i_fp2, maskedRsq, maskList, maskB, rsq_fp1, z_fp1, i_fp1,
        rsqList, zListQ3, cnormSq, csub, cmul, omegaPlus, argmaxQ3, argmaxAux,
        Q3.ltB, Q3.posB, Q3.sub_def, Q3.mul_def, Q3.add_def, Q3.zero_def]
    have e3 : i_fp3 [(⟨1,0⟩:Q3), ⟨-(1/2),0⟩, ⟨-(1/2),0⟩, ⟨0,0⟩]
        [(⟨0,0⟩:Q3), ⟨0,1/2⟩, ⟨0,-(1/2)⟩, ⟨0,0⟩] (1/5) = 2 := by
      norm_num [i_fp3, maskedRsq, maskList, maskB, rsq_fp1, z_fp1, i_fp1,
        rsqList, zListQ3, cnormSq, csub, cmul, omegaMinus, argmaxQ3, argmaxAux,
        Q3.ltB, Q3.posB, Q3.sub_def, Q3.mul_def, Q3.add_def, Q3.zero_def]
    simp only [find_fixed_points, FixedPoints.mk.injEq]
    rw [e1, e2, e3]
    norm_num [List.getD]

/-- C3 (witness): the `0°/120°/240°` instance itself. -/
theorem find_fixed_points_spec_witness :
    ([(⟨1,0⟩:Q3), ⟨-(1/2),0⟩, ⟨-(1/2),0⟩, ⟨0,0⟩] : List Q3) ≠ [] ∧
    ([(⟨0,0⟩:Q3), ⟨0,1/2⟩, ⟨0,-(1/2)⟩, ⟨0,0⟩] : List Q3).length = ([(⟨1,0⟩:Q3), ⟨-(1/2),0⟩, ⟨-(1/2),0⟩, ⟨0,0⟩] : List Q3).length ∧
    (    (i_fp1 [(⟨1,0⟩:Q3), ⟨-(1/2),0⟩, ⟨-(1/2),0⟩, ⟨0,0⟩] [(⟨0,0⟩:Q3), ⟨0,1/2⟩, ⟨0,-(1/2)⟩, ⟨0,0⟩] < ([(⟨1,0⟩:Q3), ⟨-(1/2),0⟩, ⟨-(1/2),0⟩, ⟨0,0⟩] : List Q3).length ∧
      ∀ j, j < ([(⟨1,0⟩:Q3), ⟨-(1/2),0⟩, ⟨-(1/2),0⟩, ⟨0,0⟩] : List Q3).length →
        Q3.ltB ((rsqList [(⟨1,0⟩:Q3), ⟨-(1/2),0⟩, ⟨-(1/2),0⟩, ⟨0,0⟩] [(⟨0,0⟩:Q3), ⟨0,1/2⟩, ⟨0,-(1/2)⟩, ⟨0,0⟩]).getD (i_fp1 [(⟨1,0⟩:Q3), ⟨-(1/2),0⟩, ⟨-(1/2),0⟩, ⟨0,0⟩] [(⟨0,0⟩:Q3), ⟨0,1/2⟩, ⟨0,-(1/2)⟩, ⟨0,0⟩]) 0)
          ((rsqList [(⟨1,0⟩:Q3), ⟨-(1/2),0⟩, ⟨-(1/2),0⟩, ⟨0,0⟩] [(⟨0,0⟩:Q3), ⟨0,1/2⟩, ⟨0,-(1/2)⟩, ⟨0,0⟩]).getD j 0) = false) ∧
    ((∃ j, j < ([(⟨1,0⟩:Q3), ⟨-(1/2),0⟩, ⟨-(1/2),0⟩, ⟨0,0⟩] : List Q3).length ∧
        (maskList [(⟨1,0⟩:Q3), ⟨-(1/2),0⟩, ⟨-(1/2),0⟩, ⟨0,0⟩] [(⟨0,0⟩:Q3), ⟨0,1/2⟩, ⟨0,-(1/2)⟩, ⟨0,0⟩] (1/5) omegaPlus).getD j false = true ∧
        Q3.ltB 0 ((rsqList [(⟨1,0⟩:Q3), ⟨-(1/2),0⟩, ⟨-(1/2),0⟩, ⟨0,0⟩] [(⟨0,0⟩:Q3), ⟨0,1/2⟩, ⟨0,-(1/2)⟩, ⟨0,0⟩]).getD j 0) = true) →
      i_fp2 [(⟨1,0⟩:Q3), ⟨-(1/2),0⟩, ⟨-(1/2),0⟩, ⟨0,0⟩] [(⟨0,0⟩:Q3), ⟨0,1/2⟩, ⟨0,-(1/2)⟩, ⟨0,0⟩] (1/5) < ([(⟨1,0⟩:Q3), ⟨-(1/2),0⟩, ⟨-(1/2),0⟩, ⟨0,0⟩] : List Q3).length ∧
      (maskList [(⟨1,0⟩:Q3), ⟨-(1/2),0⟩, ⟨-(1/2),0⟩, ⟨0,0⟩] [(⟨0,0⟩:Q3), ⟨0,1/2⟩, ⟨0,-(1/2)⟩, ⟨0,0⟩] (1/5) omegaPlus).getD
        (i_fp2 [(⟨1,0⟩:Q3), ⟨-(1/2),0⟩, ⟨-(1/2),0⟩, ⟨0,0⟩] [(⟨0,0⟩:Q3), ⟨0,1/2⟩, ⟨0,-(1/2)⟩, ⟨0,0⟩] (1/5)) false = true ∧
      ∀ j, j < ([(⟨1,0⟩:Q3), ⟨-(1/2),0⟩, ⟨-(1/2),0⟩, ⟨0,0⟩] : List Q3).length →
        (maskList [(⟨1,0⟩:Q3), ⟨-(1/2),0⟩, ⟨-(1/2),0⟩, ⟨0,0⟩] [(⟨0,0⟩:Q3), ⟨0,1/2⟩, ⟨0,-(1/2)⟩, ⟨0,0⟩] (1/5) omegaPlus).getD j false = true →
        Q3.ltB ((rsqList [(⟨1,0⟩:Q3), ⟨-(1/2),0⟩, ⟨-(1/2),0⟩, ⟨0,0⟩] [(⟨0,0⟩:Q3), ⟨0,1/2⟩, ⟨0,-(1/2)⟩, ⟨0,0⟩]).getD (i_fp2 [(⟨1,0⟩:Q3), ⟨-(1/2),0⟩, ⟨-(1/2),0⟩, ⟨0,0⟩] [(⟨0,0⟩:Q3), ⟨0,1/2⟩, ⟨0,-(1/2)⟩, ⟨0,0⟩] (1/5)) 0)
          ((rsqList [(⟨1,0⟩:Q3), ⟨-(1/2),0⟩, ⟨-(1/2),0⟩, ⟨0,0⟩] [(⟨0,0⟩:Q3), ⟨0,1/2⟩, ⟨0,-(1/2)⟩, ⟨0,0⟩]).getD j 0) = false) ∧
    ((∃ j, j < ([(⟨1,0⟩:Q3), ⟨-(1/2),0⟩, ⟨-(1/2),0⟩, ⟨0,0⟩] : List Q3).length ∧
        (maskList [(⟨1,0⟩:Q3), ⟨-(1/2),0⟩, ⟨-(1/2),0⟩, ⟨0,0⟩] [(⟨0,0⟩:Q3), ⟨0,1/2⟩, ⟨0,-(1/2)⟩, ⟨0,0⟩] (1/5) omegaMinus).getD j false = true ∧
        Q3.ltB 0 ((rsqList [(⟨1,0⟩:Q3), ⟨-(1/2),0⟩, ⟨-(1/2),0⟩, ⟨0,0⟩] [(⟨0,0⟩:Q3), ⟨0,1/2⟩, ⟨0,-(1/2)⟩, ⟨0,0⟩]).getD j 0) = true) →
      i_fp3 [(⟨1,0⟩:Q3), ⟨-(1/2),0⟩, ⟨-(1/2),0⟩, ⟨0,0⟩] [(⟨0,0⟩:Q3), ⟨0,1/2⟩, ⟨0,-(1/2)⟩, ⟨0,0⟩] (1/5) < ([(⟨1,0⟩:Q3), ⟨-(1/2),0⟩, ⟨-(1/2),0⟩, ⟨0,0⟩] : List Q3).length ∧
      (maskList [(⟨1,0⟩:Q3), ⟨-(1/2),0⟩, ⟨-(1/2),0⟩, ⟨0,0⟩] [(⟨0,0⟩:Q3), ⟨0,1/2⟩, ⟨0,-(1/2)⟩, ⟨0,0⟩] (1/5) omegaMinus).getD
        (i_fp3 [(⟨1,0⟩:Q3), ⟨-(1/2),0⟩, ⟨-(1/2),0⟩, ⟨0,0⟩] [(⟨0,0⟩:Q3), ⟨0,1/2⟩, ⟨0,-(1/2)⟩, ⟨0,0⟩] (1/5)) false = true ∧
      ∀ j, j < ([(⟨1,0⟩:Q3), ⟨-(1/2),0⟩, ⟨-(1/2),0⟩, ⟨0,0⟩] : List Q3).length →
        (maskList [(⟨1,0⟩:Q3), ⟨-(1/2),0⟩, ⟨-(1/2),0⟩, ⟨0,0⟩] [(⟨0,0⟩:Q3), ⟨0,1/2⟩, ⟨0,-(1/2)⟩, ⟨0,0⟩] (1/5) omegaMinus).getD j false = true →
        Q3.ltB ((rsqList [(⟨1,0⟩:Q3), ⟨-(1/2),0⟩, ⟨-(1/2),0⟩, ⟨0,0⟩] [(⟨0,0⟩:Q3), ⟨0,1/2⟩, ⟨0,-(1/2)⟩, ⟨0,0⟩]).getD (i_fp3 [(⟨1,0⟩:Q3), ⟨-(1/2),0⟩, ⟨-(1/2),0⟩, ⟨0,0⟩] [(⟨0,0⟩:Q3), ⟨0,1/2⟩, ⟨0,-(1/2)⟩, ⟨0,0⟩] (1/5)) 0)
          ((rsqList [(⟨1,0⟩:Q3), ⟨-(1/2),0⟩, ⟨-(1/2),0⟩, ⟨0,0⟩] [(⟨0,0⟩:Q3), ⟨0,1/2⟩, ⟨0,-(1/2)⟩, ⟨0,0⟩]).getD j 0) = false) ∧
    find_fixed_points [(⟨10,0⟩:Q3), ⟨20,0⟩, ⟨30,0⟩, ⟨40,0⟩]
        [(⟨50,0⟩:Q3), ⟨60,0⟩, ⟨70,0⟩, ⟨80,0⟩]
        [(⟨1,0⟩:Q3), ⟨-(1/2),0⟩, ⟨-(1/2),0⟩, ⟨0,0⟩]
        [(⟨0,0⟩:Q3), ⟨0,1/2⟩, ⟨0,-(1/2)⟩, ⟨0,0⟩] (1/5)
      = ⟨[⟨1,0⟩, ⟨-(1/2),0⟩, ⟨-(1/2),0⟩],
          [⟨0,0⟩, ⟨0,1/2⟩, ⟨0,-(1/2)⟩],
          [⟨10,0⟩, ⟨20,0⟩, ⟨30,0⟩],
          [⟨50,0⟩, ⟨60,0⟩, ⟨70,0⟩]⟩) :=
  ⟨by simp, by norm_num,
    find_fixed_points_spec [(⟨10,0⟩:Q3), ⟨20,0⟩, ⟨30,0⟩, ⟨40,0⟩]
      [(⟨50,0⟩:Q3), ⟨60,0⟩, ⟨70,0⟩, ⟨80,0⟩]
      [(⟨1,0⟩:Q3), ⟨-(1/2),0⟩, ⟨-(1/2),0⟩, ⟨0,0⟩]
      [(⟨0,0⟩:Q3), ⟨0,1/2⟩, ⟨0,-(1/2)⟩, ⟨0,0⟩] (1/5) (by simp) (by norm_num)⟩

/-- C6 (witness): two samples, the second of zero amplitude; no sample
falls inside the `+120°` search disk, and the sample at index `0` is
returned as the second fixed point. -/
theorem find_fixed_points_empty_sector_witness :
    ([(⟨0,0⟩:Q3), ⟨0,0⟩] : List Q3).length = ([(⟨1,0⟩:Q3), ⟨0,0⟩] : List Q3).length ∧
    (∀ j, j < ([(⟨1,0⟩:Q3), ⟨0,0⟩] : List Q3).length →
      (maskList [(⟨1,0⟩:Q3), ⟨0,0⟩] [(⟨0,0⟩:Q3), ⟨0,0⟩] (1/5) omegaPlus).getD j false = false) ∧
    (i_fp2 [(⟨1,0⟩:Q3), ⟨0,0⟩] [(⟨0,0⟩:Q3), ⟨0,0⟩] (1/5) = 0 ∧
      (find_fixed_points [(⟨10,0⟩:Q3), ⟨20,0⟩] [(⟨30,0⟩:Q3), ⟨40,0⟩]
        [(⟨1,0⟩:Q3), ⟨0,0⟩] [(⟨0,0⟩:Q3), ⟨0,0⟩] (1/5)).x_norm_fp.getD 1 0
        = ([(⟨1,0⟩:Q3), ⟨0,0⟩] : List Q3).getD 0 0 ∧
      (find_fixed_points [(⟨10,0⟩:Q3), ⟨20,0⟩] [(⟨30,0⟩:Q3), ⟨40,0⟩]
        [(⟨1,0⟩:Q3), ⟨0,0⟩] [(⟨0,0⟩:Q3), ⟨0,0⟩] (1/5)).px_norm_fp.getD 1 0
        = ([(⟨0,0⟩:Q3), ⟨0,0⟩] : List Q3).getD 0 0 ∧
      (find_fixed_points [(⟨10,0⟩:Q3), ⟨20,0⟩] [(⟨30,0⟩:Q3), ⟨40,0⟩]
        [(⟨1,0⟩:Q3), ⟨0,0⟩] [(⟨0,0⟩:Q3), ⟨0,0⟩] (1/5)).x_fp.getD 1 0
        = ([(⟨10,0⟩:Q3), ⟨20,0⟩] : List Q3).getD 0 0 ∧
      (find_fixed_points [(⟨10,0⟩:Q3), ⟨20,0⟩] [(⟨30,0⟩:Q3), ⟨40,0⟩]
        [(⟨1,0⟩:Q3), ⟨0,0⟩] [(⟨0,0⟩:Q3), ⟨0,0⟩] (1/5)).px_fp.getD 1 0
        = ([(⟨30,0⟩:Q3), ⟨40,0⟩] : List Q3).getD 0 0) := by
  have hm : ∀ j, j < ([(⟨1,0⟩:Q3), ⟨0,0⟩] : List Q3).length →
      (maskList [(⟨1,0⟩:Q3), ⟨0,0⟩] [(⟨0,0⟩:Q3), ⟨0,0⟩] (1/5) omegaPlus).getD j false = false := by
    intro j hj
    simp only [List.length_cons, List.length_nil] at hj
    interval_cases j <;>
      norm_num [maskList, maskB, rsq_fp1, z_fp1, i_fp1, rsqList, zListQ3,
        cnormSq, csub, cmul, omegaPlus, argmaxQ3, argmaxAux, Q3.ltB, Q3.posB,
        Q3.sub_def, Q3.mul_def, Q3.add_def, Q3.zero_def, List.getD]
  exact ⟨by norm_num, hm,
    (find_fixed_points_empty_sector [(⟨10,0⟩:Q3), ⟨20,0⟩] [(⟨30,0⟩:Q3), ⟨40,0⟩]
      [(⟨1,0⟩:Q3), ⟨0,0⟩] [(⟨0,0⟩:Q3), ⟨0,0⟩] (1/5) (by norm_num)).1 hm⟩
